import Mathlib

/-!
# Verification of `distributed_memcached.py`

Shallow embedding of the consistent hash ring (`ConsistentHashRing`) and the
replicating client (`DistributedMemcachedClient`) from
`src/distributed_memcached.py`, together with proofs of the frozen claims.

Modelling conventions:
* Python dicts are insertion-ordered association lists (`dget` / `dset` /
  `ddel` mirror `d[k]`, `d[k] = v`, `del d[k]`).
* The md5-based `_hash` is an external library digest; the spec notes that any
  deterministic hash suffices, so every ring operation is parametrised by a
  hash function `hsh : String → Nat`.
* The opaque pymemcache client handle is a type parameter `κ`; the behaviour
  of the remote calls `client.set` / `client.get` / `client.delete` is an
  oracle passed to the client operations.
* `bisect.bisect` and `bisect.bisect_left` are translated as the standard
  binary search loops they implement.
-/

namespace DistMC

/-- Python dict lookup `d.get(k)` on an association list. -/
def dget {α β : Type} [DecidableEq α] (d : List (α × β)) (k : α) : Option β :=
  (d.find? (fun p => decide (p.1 = k))).map Prod.snd

/-- Python dict assignment `d[k] = v`: update in place when the key is
present, append otherwise. -/
def dset {α β : Type} [DecidableEq α] (d : List (α × β)) (k : α) (v : β) :
    List (α × β) :=
  if (dget d k).isSome then d.map (fun p => if p.1 = k then (k, v) else p)
  else d ++ [(k, v)]

/-- Python dict deletion `del d[k]` (removes the entry for `k`). -/
def ddel {α β : Type} [DecidableEq α] (d : List (α × β)) (k : α) :
    List (α × β) :=
  d.eraseP (fun p => decide (p.1 = k))

/-- Python `bisect.bisect_right` (alias `bisect.bisect`): binary search
returning the insertion point to the right of existing entries equal to `x`.
Mirrors the stdlib loop `while lo < hi: mid = (lo+hi)//2;
if x < a[mid]: hi = mid else: lo = mid+1`. The span `hi - lo` shrinks every
iteration, so running the loop on `hi - lo` fuel (or any more) computes the
loop result; the wrapper below passes `a.length`. -/
def bisectRightAux (a : List Nat) (x : Nat) : Nat → Nat → Nat → Nat
  | 0, lo, _ => lo
  | fuel + 1, lo, hi =>
    if lo < hi then
      let mid := (lo + hi) / 2
      if x < a.getD mid 0 then bisectRightAux a x fuel lo mid
      else bisectRightAux a x fuel (mid + 1) hi
    else lo

/-- `bisect.bisect(a, x)` as called by the ring code. -/
def bisect (a : List Nat) (x : Nat) : Nat :=
  bisectRightAux a x a.length 0 a.length

/-- Python `bisect.bisect_left`: binary search returning the insertion point
to the left of existing entries equal to `x`. Mirrors the stdlib loop
`while lo < hi: mid = (lo+hi)//2; if a[mid] < x: lo = mid+1 else: hi = mid`,
on fuel like `bisectRightAux`. -/
def bisectLeftAux (a : List Nat) (x : Nat) : Nat → Nat → Nat → Nat
  | 0, lo, _ => lo
  | fuel + 1, lo, hi =>
    if lo < hi then
      let mid := (lo + hi) / 2
      if a.getD mid 0 < x then bisectLeftAux a x fuel (mid + 1) hi
      else bisectLeftAux a x fuel lo mid
    else lo

/-- `bisect.bisect_left(a, x)` as called by `remove_node`. -/
def bisectL (a : List Nat) (x : Nat) : Nat :=
  bisectLeftAux a x a.length 0 a.length

/-- State of `ConsistentHashRing`: `replicas` is the virtual-point density,
`ring` the sorted list of hashes, `hash2node` the hash-to-owner dict and
`nodes` the name-to-client dict. -/
structure ConsistentHashRing (κ : Type) where
  replicas : Nat
  ring : List Nat
  hash2node : List (Nat × String)
  nodes : List (String × κ)
deriving DecidableEq

namespace ConsistentHashRing

/-- The virtual-point label `f"{node_name}:{i}"`. -/
def vlabel (name : String) (i : Nat) : String :=
  name ++ ":" ++ toString i

/-- The `replicas` many hashes inserted for a node by `add_node`. -/
def nodeHashes (hsh : String → Nat) (replicas : Nat) (name : String) :
    List Nat :=
  (List.range replicas).map (fun i => hsh (vlabel name i))

/-- `ConsistentHashRing.add_node`: no-op when the name is registered;
otherwise registers the client, assigns `hash2node[h] = name` and appends `h`
to `ring` for each virtual-point hash, then sorts the ring (`ring.sort()` is
a stable ascending sort; on a list of naturals any stable ascending sort
computes the same list, here `insertionSort`). -/
def add_node (hsh : String → Nat) (st : ConsistentHashRing κ) (name : String)
    (client : κ) : ConsistentHashRing κ :=
  if (dget st.nodes name).isSome then st
  else
    let hs := nodeHashes hsh st.replicas name
    { st with
      nodes := dset st.nodes name client
      hash2node := hs.foldl (fun d h => dset d h name) st.hash2node
      ring := (st.ring ++ hs).insertionSort (· ≤ ·) }

/-- The body of the per-hash removal step of `remove_node`: find `h` by
`bisect_left` and pop it when actually present at that index. -/
def popBisect (r : List Nat) (h : Nat) : List Nat :=
  let idx := bisectL r h
  if idx < r.length ∧ r.getD idx 0 = h then r.eraseIdx idx else r

/-- `ConsistentHashRing.remove_node`: no-op when the name is absent; otherwise
drops the client, collects `to_remove = [h for h,n in hash2node.items() if
n == name]`, and for each such `h` deletes `hash2node[h]` and pops `h` from
the ring via `bisect_left`. -/
def remove_node (st : ConsistentHashRing κ) (name : String) :
    ConsistentHashRing κ :=
  if (dget st.nodes name).isNone then st
  else
    let toRemove := (st.hash2node.filter (fun p => decide (p.2 = name))).map
      Prod.fst
    { st with
      nodes := ddel st.nodes name
      hash2node := toRemove.foldl (fun d h => ddel d h) st.hash2node
      ring := toRemove.foldl (fun r h => popBisect r h) st.ring }

/-- `ConsistentHashRing.get_node`: `(None, None)` on an empty ring, else the
owner of the ring point selected by `bisect` with wrap-around. The two `none`
fallthroughs correspond to `KeyError`s that cannot occur in well-formed
states. -/
def get_node (hsh : String → Nat) (st : ConsistentHashRing κ) (key : String) :
    Option (String × κ) :=
  if st.ring = [] then none
  else
    let idx := bisect st.ring (hsh key)
    let idx' := if idx = st.ring.length then 0 else idx
    match dget st.hash2node (st.ring.getD idx' 0) with
    | none => none
    | some name =>
      match dget st.nodes name with
      | none => none
      | some c => some (name, c)

/-- The body of one iteration of the `get_nodes_for_key` walk at ring point
`h`: collect the owner of `h` when it is a registered, not yet used name. -/
def gnfkStep (st : ConsistentHashRing κ) (found : List (String × κ))
    (used : List String) (h : Nat) : List (String × κ) × List String :=
  match dget st.hash2node h with
  | none => (found, used)
  | some name =>
    match dget st.nodes name with
    | none => (found, used)
    | some c =>
      if name ∈ used then (found, used)
      else (found ++ [(name, c)], used ++ [name])

/-- One-iteration-per-fuel translation of the `while` loop of
`get_nodes_for_key`. The Python loop terminates within `ring.length`
iterations whenever every ring point is owned by a registered node (and
diverges otherwise); the fuel models that bound. -/
def gnfkLoop (st : ConsistentHashRing κ) (count : Nat) :
    Nat → Nat → List (String × κ) → List String → List (String × κ)
  | 0, _, found, _ => found
  | fuel + 1, i, found, used =>
    if found.length < count ∧ 0 < st.ring.length then
      let i' := if i = st.ring.length then 0 else i
      let step := gnfkStep st found used (st.ring.getD i' 0)
      if step.2.length = st.nodes.length then step.1
      else gnfkLoop st count fuel (i' + 1) step.1 step.2
    else found

/-- `ConsistentHashRing.get_nodes_for_key`: walk clockwise from the bisect
point collecting distinct registered nodes until `count` are found or every
registered node has been seen. -/
def get_nodes_for_key (hsh : String → Nat) (st : ConsistentHashRing κ)
    (key : String) (count : Nat) : List (String × κ) :=
  if st.ring = [] then []
  else gnfkLoop st count st.ring.length (bisect st.ring (hsh key)) [] []

/-- The successor point of `h` on the ring, written from the words of the
spec (not from the code) for the refinement claim about `get_node`: the
first ring point whose hash value is strictly greater than `h`, wrapping to
the first (smallest) point when `h` is greater than all points. -/
def specSuccessor (ring : List Nat) (h : Nat) : Option Nat :=
  match ring.find? (fun p => decide (h < p)) with
  | some p => some p
  | none => ring.head?

/-- Well-formedness of a ring state, the invariants stated in the data-model
section of the spec: the ring is strictly sorted; ring points and
`hash2node` keys coincide; `hash2node` keys and node names are duplicate
free; every mapped owner is registered; and every registered node owns at
least one point. -/
def WF (st : ConsistentHashRing κ) : Prop :=
  st.ring.Sorted (· < ·) ∧
  (∀ h ∈ st.ring, h ∈ st.hash2node.map Prod.fst) ∧
  (∀ p ∈ st.hash2node, p.1 ∈ st.ring) ∧
  (st.hash2node.map Prod.fst).Nodup ∧
  (st.nodes.map Prod.fst).Nodup ∧
  (∀ p ∈ st.hash2node, (dget st.nodes p.2).isSome) ∧
  (∀ q ∈ st.nodes, ∃ p ∈ st.hash2node, p.2 = q.1)

instance (st : ConsistentHashRing κ) : Decidable st.WF := by
  unfold WF
  infer_instance

end ConsistentHashRing

/-- A ring-membership operation (`add_node` or `remove_node`). -/
inductive RingOp (κ : Type) where
  | add : String → κ → RingOp κ
  | rem : String → RingOp κ
deriving DecidableEq

/-- Apply one membership operation to a ring state. -/
def applyOp (hsh : String → Nat) (st : ConsistentHashRing κ) :
    RingOp κ → ConsistentHashRing κ
  | .add name client => st.add_node hsh name client
  | .rem name => st.remove_node name

/-- Apply a sequence of membership operations from left to right. -/
def applyOps (hsh : String → Nat) (st : ConsistentHashRing κ)
    (ops : List (RingOp κ)) : ConsistentHashRing κ :=
  ops.foldl (fun s op => applyOp hsh s op) st

/-- The node names added anywhere in an operation sequence. -/
def addNames : List (RingOp κ) → List String
  | [] => []
  | .add name _ :: tl => name :: addNames tl
  | .rem _ :: tl => addNames tl

/-- Absence of virtual-point hash collisions: over the given name universe,
distinct virtual-point labels receive distinct hash values. -/
def NoCollisions (hsh : String → Nat) (V : Nat) (names : List String) :
    Prop :=
  ∀ n1 ∈ names, ∀ n2 ∈ names, ∀ i1 ∈ List.range V, ∀ i2 ∈ List.range V,
    hsh (ConsistentHashRing.vlabel n1 i1) =
      hsh (ConsistentHashRing.vlabel n2 i2) → n1 = n2 ∧ i1 = i2

instance (hsh : String → Nat) (V : Nat) (names : List String) :
    Decidable (NoCollisions hsh V names) := by
  unfold NoCollisions
  infer_instance

/-- The invariant carried through a collision-free run: density is `V`,
members draw from the universe `NS`, `hash2node` has duplicate-free keys,
each of whose entries is a virtual point of a current member, and the ring
is strictly sorted and holds exactly the `hash2node` keys. -/
def GoodState (hsh : String → Nat) (V : Nat) (NS : List String)
    (st : ConsistentHashRing κ) : Prop :=
  st.replicas = V ∧
  (∀ q ∈ st.nodes, q.1 ∈ NS) ∧
  (st.hash2node.map Prod.fst).Nodup ∧
  (∀ p ∈ st.hash2node, p.2 ∈ st.nodes.map Prod.fst ∧
    ∃ i, i < V ∧ p.1 = hsh (ConsistentHashRing.vlabel p.2 i)) ∧
  st.ring.Sorted (· < ·) ∧
  (∀ h, h ∈ st.ring ↔ h ∈ st.hash2node.map Prod.fst)

/-- Two nodes of density 1 inserted under a constant hash: every virtual
point collides on the value 7. -/
def stColl : ConsistentHashRing Unit :=
  ((⟨1, [], [], []⟩ : ConsistentHashRing Unit).add_node (fun _ => 7) "a"
    ()).add_node (fun _ => 7) "b" ()

/-- A Python value as returned by a pymemcache `get`: a bytes object (a list
of byte values), a string, or some other object (modelled by `Int`). -/
inductive PyVal where
  | bytesVal : List Nat → PyVal
  | strVal : String → PyVal
  | intVal : Int → PyVal
deriving DecidableEq

/-- Outcome of a remote `client.get(key)` call: an exception, a miss
(`None`), or a present value. -/
inductive GetResp where
  | err : GetResp
  | miss : GetResp
  | hit : PyVal → GetResp
deriving DecidableEq

/-- Whether a response carries a value. -/
def GetResp.isHit : GetResp → Bool
  | .hit _ => true
  | _ => false

/-- State of `DistributedMemcachedClient`: the ring, the clamped replication
factor and the local bookkeeping dict `key_map`. -/
structure DistributedMemcachedClient (κ : Type) where
  ring : ConsistentHashRing κ
  replication_factor : Nat
  key_map : List (String × List String)
deriving DecidableEq

namespace DistributedMemcachedClient

/-- The `for node_name, client in nodes:` loop of `set`: `setOk cl` tells
whether `client.set` succeeds or raises. Threads `results`, `success` and
`stored_nodes` exactly as the source does. -/
def setLoop (setOk : κ → Bool) :
    List (String × κ) → List (String × Bool) → Bool → List String →
    List (String × Bool) × Bool × List String
  | [], results, success, stored => (results, success, stored)
  | (name, cl) :: rest, results, success, stored =>
    if setOk cl then
      setLoop setOk rest (dset results name true) true (stored ++ [name])
    else
      setLoop setOk rest (dset results name false) success stored

/-- `DistributedMemcachedClient.set` (key, value and ttl influence only the
oracle, so they are folded into `setOk`): fan the write out over the replica
set, then record `key_map[key] = stored_nodes`. -/
def set (hsh : String → Nat) (setOk : κ → Bool)
    (c : DistributedMemcachedClient κ) (key : String) :
    (Bool × List (String × Bool)) × DistributedMemcachedClient κ :=
  let nodes := c.ring.get_nodes_for_key hsh key c.replication_factor
  let r := setLoop setOk nodes [] false []
  ((r.2.1, r.1), { c with key_map := dset c.key_map key r.2.2 })

/-- Python `bytes.decode()` is an external library call; it is modelled by a
decoder parameter returning `none` exactly when decoding raises. -/
def decodeValue (dec : List Nat → Option String) : PyVal → PyVal
  | .bytesVal b =>
    match dec b with
    | some s => .strVal s
    | none => .bytesVal b
  | v => v

/-- The replica walk of `get`: first hit wins (bytes get decoded), errors and
misses fall through to the next replica, `None` when the walk ends. -/
def getLoop (getResp : κ → GetResp) (dec : List Nat → Option String) :
    List (String × κ) → Option PyVal
  | [] => none
  | (_, cl) :: rest =>
    match getResp cl with
    | .hit v => some (decodeValue dec v)
    | _ => getLoop getResp dec rest

/-- `DistributedMemcachedClient.get`. -/
def get (hsh : String → Nat) (getResp : κ → GetResp)
    (dec : List Nat → Option String) (c : DistributedMemcachedClient κ)
    (key : String) : Option PyVal :=
  getLoop getResp dec (c.ring.get_nodes_for_key hsh key c.replication_factor)

/-- The `for` loop of `delete`: records `results[name] = delOk cl`. -/
def deleteLoop (delOk : κ → Bool) :
    List (String × κ) → List (String × Bool) → List (String × Bool)
  | [], results => results
  | (name, cl) :: rest, results =>
    deleteLoop delOk rest (dset results name (delOk cl))

/-- `DistributedMemcachedClient.delete`: fan the delete out over the replica
set, then `if key in key_map: del key_map[key]`. -/
def delete (hsh : String → Nat) (delOk : κ → Bool)
    (c : DistributedMemcachedClient κ) (key : String) :
    List (String × Bool) × DistributedMemcachedClient κ :=
  let nodes := c.ring.get_nodes_for_key hsh key c.replication_factor
  let results := deleteLoop delOk nodes []
  (results,
    { c with
      key_map :=
        if (dget c.key_map key).isSome then ddel c.key_map key
        else c.key_map })

end DistributedMemcachedClient

/-! ## Concrete states used by the witnesses -/

/-- A concrete hash table standing in for md5 on the few labels the witnesses
use. -/
def hshW : String → Nat := fun s =>
  if s = "a:0" then 10 else if s = "a:1" then 40
  else if s = "b:0" then 20 else if s = "b:1" then 50
  else if s = "c:0" then 30 else if s = "c:1" then 60
  else if s = "k1" then 25 else if s = "k2" then 55
  else 0

/-- Empty ring with density 2; client handles are the node names. -/
def emptyRing2 : ConsistentHashRing String := ⟨2, [], [], []⟩

/-- Ring with node `a`. -/
def stA : ConsistentHashRing String := emptyRing2.add_node hshW "a" "a"

/-- Ring with nodes `a`, `b`. -/
def stAB : ConsistentHashRing String := stA.add_node hshW "b" "b"

/-- Ring with nodes `a`, `b`, `c`. -/
def stABC : ConsistentHashRing String := stAB.add_node hshW "c" "c"

/-- A client over `stABC` with replication factor 2 and empty bookkeeping. -/
def cABC : DistributedMemcachedClient String := ⟨stABC, 2, []⟩

/-- A client over `stA` with replication factor 1 and empty bookkeeping. -/
def cA : DistributedMemcachedClient String := ⟨stA, 1, []⟩

/-- Remote-get oracle used by witnesses: node `c` raises, node `a` holds the
integer 7, node `b` misses. -/
def grW : String → GetResp := fun cl =>
  if cl = "c" then .err else if cl = "a" then .hit (.intVal 7) else .miss

/-- Remote-get oracle used by witnesses: node `c` raises, node `a` holds the
bytes `[104, 105]`, node `b` misses. -/
def grB : String → GetResp := fun cl =>
  if cl = "c" then .err
  else if cl = "a" then .hit (.bytesVal [104, 105]) else .miss

/-- Decoder oracle used by witnesses: only `[104, 105]` decodes, to "hi". -/
def decW : List Nat → Option String := fun b =>
  if b = [104, 105] then some "hi" else none

/-! ## Association-list (Python dict) lemmas -/

theorem dget_nil {α β : Type} [DecidableEq α] (k : α) :
    dget ([] : List (α × β)) k = none := rfl

theorem dget_cons {α β : Type} [DecidableEq α] (a : α) (b : β)
    (d : List (α × β)) (k : α) :
    dget ((a, b) :: d) k = if a = k then some b else dget d k := by
  by_cases h : a = k <;> simp [dget, List.find?_cons, h]

theorem dget_append_right {α β : Type} [DecidableEq α] {d₁ : List (α × β)}
    (d₂ : List (α × β)) {k : α} (h : dget d₁ k = none) :
    dget (d₁ ++ d₂) k = dget d₂ k := by
  induction d₁ with
  | nil => simp
  | cons p d ih =>
    obtain ⟨a, b⟩ := p
    rw [dget_cons] at h
    rw [List.cons_append, dget_cons]
    by_cases hak : a = k
    · simp [hak] at h
    · simpa [hak] using ih (by simpa [hak] using h)

theorem dget_append_left {α β : Type} [DecidableEq α] {d₁ : List (α × β)}
    (d₂ : List (α × β)) {k : α} {v : β} (h : dget d₁ k = some v) :
    dget (d₁ ++ d₂) k = some v := by
  induction d₁ with
  | nil => simp [dget_nil] at h
  | cons p d ih =>
    obtain ⟨a, b⟩ := p
    rw [dget_cons] at h
    rw [List.cons_append, dget_cons]
    by_cases hak : a = k
    · simpa [hak] using h
    · simpa [hak] using ih (by simpa [hak] using h)

theorem dget_eq_none_of_not_mem {α β : Type} [DecidableEq α]
    {d : List (α × β)} {k : α} (h : k ∉ d.map Prod.fst) : dget d k = none := by
  induction d with
  | nil => rfl
  | cons p d ih =>
    obtain ⟨a, b⟩ := p
    simp only [List.map_cons, List.mem_cons] at h
    push_neg at h
    rw [dget_cons, if_neg (fun hak => h.1 hak.symm)]
    exact ih h.2

theorem dget_isSome_iff_mem {α β : Type} [DecidableEq α]
    (d : List (α × β)) (k : α) :
    (dget d k).isSome = true ↔ k ∈ d.map Prod.fst := by
  induction d with
  | nil => simp [dget_nil]
  | cons p d ih =>
    obtain ⟨a, b⟩ := p
    rw [dget_cons]
    by_cases hak : a = k
    · subst hak
      simp
    · rw [if_neg hak]
      simp only [List.map_cons, List.mem_cons]
      rw [ih]
      constructor
      · exact Or.inr
      · rintro (h | h)
        · exact absurd h.symm hak
        · exact h

theorem dset_of_none {α β : Type} [DecidableEq α] {d : List (α × β)} {k : α}
    (v : β) (h : dget d k = none) : dset d k v = d ++ [(k, v)] := by
  simp [dset, h]

theorem ddel_cons {α β : Type} [DecidableEq α] (a : α) (b : β)
    (d : List (α × β)) (k : α) :
    ddel ((a, b) :: d) k = if a = k then d else (a, b) :: ddel d k := by
  by_cases hak : a = k <;> simp [ddel, List.eraseP_cons, hak]

theorem dget_ddel_other {α β : Type} [DecidableEq α] (d : List (α × β))
    {k k' : α} (hne : k' ≠ k) : dget (ddel d k) k' = dget d k' := by
  induction d with
  | nil => rfl
  | cons p d ih =>
    obtain ⟨a, b⟩ := p
    rw [ddel_cons]
    by_cases hak : a = k
    · rw [if_pos hak, dget_cons, if_neg (fun h => hne (h.symm.trans hak))]
    · rw [if_neg hak, dget_cons, dget_cons, ih]

theorem dget_ddel_self {α β : Type} [DecidableEq α] {d : List (α × β)}
    (k : α) (hnd : (d.map Prod.fst).Nodup) : dget (ddel d k) k = none := by
  induction d with
  | nil => rfl
  | cons p d ih =>
    obtain ⟨a, b⟩ := p
    simp only [List.map_cons, List.nodup_cons] at hnd
    rw [ddel_cons]
    by_cases hak : a = k
    · rw [if_pos hak]
      subst hak
      exact dget_eq_none_of_not_mem hnd.1
    · rw [if_neg hak, dget_cons, if_neg hak]
      exact ih hnd.2

/-! ## Binary search lemmas -/

theorem getD_eq_getElem_of_lt (a : List Nat) {i : Nat} (h : i < a.length) :
    a.getD i 0 = a[i] := by
  simp [List.getD_eq_getElem?_getD, List.getElem?_eq_getElem h]

theorem sorted_getD_mono {a : List Nat} (hs : a.Sorted (· ≤ ·)) {i j : Nat}
    (hij : i ≤ j) (hj : j < a.length) : a.getD i 0 ≤ a.getD j 0 := by
  have hi : i < a.length := lt_of_le_of_lt hij hj
  rw [getD_eq_getElem_of_lt a hi, getD_eq_getElem_of_lt a hj]
  have := hs.rel_get_of_le (a := ⟨i, hi⟩) (b := ⟨j, hj⟩) (Fin.mk_le_mk.mpr hij)
  simpa using this

theorem bisectRightAux_bounds (a : List Nat) (x : Nat) :
    ∀ (fuel lo hi : Nat), lo ≤ hi →
    lo ≤ bisectRightAux a x fuel lo hi ∧ bisectRightAux a x fuel lo hi ≤ hi
  | 0, lo, hi, hlh => ⟨Nat.le_refl _, hlh⟩
  | fuel + 1, lo, hi, hlh => by
    by_cases hlt : lo < hi
    · have hunf : bisectRightAux a x (fuel + 1) lo hi =
          if x < a.getD ((lo + hi) / 2) 0 then
            bisectRightAux a x fuel lo ((lo + hi) / 2)
          else bisectRightAux a x fuel ((lo + hi) / 2 + 1) hi := by
        simp only [bisectRightAux]
        rw [if_pos hlt]
      rw [hunf]
      by_cases hx : x < a.getD ((lo + hi) / 2) 0
      · rw [if_pos hx]
        have h := bisectRightAux_bounds a x fuel lo ((lo + hi) / 2) (by omega)
        exact ⟨h.1, by omega⟩
      · rw [if_neg hx]
        have h := bisectRightAux_bounds a x fuel ((lo + hi) / 2 + 1) hi
          (by omega)
        exact ⟨by omega, h.2⟩
    · have hunf : bisectRightAux a x (fuel + 1) lo hi = lo := by
        simp only [bisectRightAux]
        rw [if_neg hlt]
      rw [hunf]
      exact ⟨Nat.le_refl _, hlh⟩

theorem bisect_le_length (a : List Nat) (x : Nat) : bisect a x ≤ a.length :=
  (bisectRightAux_bounds a x a.length 0 a.length (Nat.zero_le _)).2

theorem bisectRightAux_spec {a : List Nat} (hs : a.Sorted (· ≤ ·)) (x : Nat) :
    ∀ (fuel lo hi : Nat), hi - lo ≤ fuel → lo ≤ hi → hi ≤ a.length →
    (∀ i, i < lo → a.getD i 0 ≤ x) →
    (∀ i, hi ≤ i → i < a.length → x < a.getD i 0) →
    (∀ i, i < bisectRightAux a x fuel lo hi → a.getD i 0 ≤ x) ∧
    (∀ i, bisectRightAux a x fuel lo hi ≤ i → i < a.length →
      x < a.getD i 0) := by
  intro fuel
  induction fuel with
  | zero =>
    intro lo hi hf hlh _ hlow hhigh
    have hunf : bisectRightAux a x 0 lo hi = lo := rfl
    rw [hunf]
    exact ⟨hlow, fun i h1 h2 => hhigh i (by omega) h2⟩
  | succ fuel ih =>
    intro lo hi hf hlh hhl hlow hhigh
    by_cases hlt : lo < hi
    · have hmidlen : (lo + hi) / 2 < a.length := by omega
      have hunf : bisectRightAux a x (fuel + 1) lo hi =
          if x < a.getD ((lo + hi) / 2) 0 then
            bisectRightAux a x fuel lo ((lo + hi) / 2)
          else bisectRightAux a x fuel ((lo + hi) / 2 + 1) hi := by
        simp only [bisectRightAux]
        rw [if_pos hlt]
      rw [hunf]
      by_cases hx : x < a.getD ((lo + hi) / 2) 0
      · rw [if_pos hx]
        exact ih lo ((lo + hi) / 2) (by omega) (by omega) (by omega) hlow
          (fun i h1 h2 =>
            lt_of_lt_of_le hx (sorted_getD_mono hs h1 h2))
      · rw [if_neg hx]
        exact ih ((lo + hi) / 2 + 1) hi (by omega) (by omega) hhl
          (fun i h1 =>
            le_trans (sorted_getD_mono hs (by omega) hmidlen)
              (not_lt.mp hx))
          hhigh
    · have hunf : bisectRightAux a x (fuel + 1) lo hi = lo := by
        simp only [bisectRightAux]
        rw [if_neg hlt]
      rw [hunf]
      exact ⟨hlow, fun i h1 h2 => hhigh i (by omega) h2⟩

/-- On a sorted list, `bisect.bisect` returns the index of the first entry
strictly greater than `x` (or the length when there is none): everything
before the returned index is `≤ x` and everything from it on is `> x`. -/
theorem bisect_spec {a : List Nat} (hs : a.Sorted (· ≤ ·)) (x : Nat) :
    (∀ i, i < bisect a x → a.getD i 0 ≤ x) ∧
    (∀ i, bisect a x ≤ i → i < a.length → x < a.getD i 0) :=
  bisectRightAux_spec hs x a.length 0 a.length (by omega) (Nat.zero_le _)
    (Nat.le_refl _) (fun i h1 => absurd h1 (Nat.not_lt_zero i))
    (fun i h1 h2 => absurd h2 (not_lt.mpr h1))

theorem bisectLeftAux_bounds (a : List Nat) (x : Nat) :
    ∀ (fuel lo hi : Nat), lo ≤ hi →
    lo ≤ bisectLeftAux a x fuel lo hi ∧ bisectLeftAux a x fuel lo hi ≤ hi
  | 0, lo, hi, hlh => ⟨Nat.le_refl _, hlh⟩
  | fuel + 1, lo, hi, hlh => by
    by_cases hlt : lo < hi
    · have hunf : bisectLeftAux a x (fuel + 1) lo hi =
          if a.getD ((lo + hi) / 2) 0 < x then
            bisectLeftAux a x fuel ((lo + hi) / 2 + 1) hi
          else bisectLeftAux a x fuel lo ((lo + hi) / 2) := by
        simp only [bisectLeftAux]
        rw [if_pos hlt]
      rw [hunf]
      by_cases hx : a.getD ((lo + hi) / 2) 0 < x
      · rw [if_pos hx]
        have h := bisectLeftAux_bounds a x fuel ((lo + hi) / 2 + 1) hi
          (by omega)
        exact ⟨by omega, h.2⟩
      · rw [if_neg hx]
        have h := bisectLeftAux_bounds a x fuel lo ((lo + hi) / 2) (by omega)
        exact ⟨h.1, by omega⟩
    · have hunf : bisectLeftAux a x (fuel + 1) lo hi = lo := by
        simp only [bisectLeftAux]
        rw [if_neg hlt]
      rw [hunf]
      exact ⟨Nat.le_refl _, hlh⟩

theorem bisectL_le_length (a : List Nat) (x : Nat) : bisectL a x ≤ a.length :=
  (bisectLeftAux_bounds a x a.length 0 a.length (Nat.zero_le _)).2

theorem bisectLeftAux_spec {a : List Nat} (hs : a.Sorted (· ≤ ·)) (x : Nat) :
    ∀ (fuel lo hi : Nat), hi - lo ≤ fuel → lo ≤ hi → hi ≤ a.length →
    (∀ i, i < lo → a.getD i 0 < x) →
    (∀ i, hi ≤ i → i < a.length → x ≤ a.getD i 0) →
    (∀ i, i < bisectLeftAux a x fuel lo hi → a.getD i 0 < x) ∧
    (∀ i, bisectLeftAux a x fuel lo hi ≤ i → i < a.length →
      x ≤ a.getD i 0) := by
  intro fuel
  induction fuel with
  | zero =>
    intro lo hi hf hlh _ hlow hhigh
    have hunf : bisectLeftAux a x 0 lo hi = lo := rfl
    rw [hunf]
    exact ⟨hlow, fun i h1 h2 => hhigh i (by omega) h2⟩
  | succ fuel ih =>
    intro lo hi hf hlh hhl hlow hhigh
    by_cases hlt : lo < hi
    · have hmidlen : (lo + hi) / 2 < a.length := by omega
      have hunf : bisectLeftAux a x (fuel + 1) lo hi =
          if a.getD ((lo + hi) / 2) 0 < x then
            bisectLeftAux a x fuel ((lo + hi) / 2 + 1) hi
          else bisectLeftAux a x fuel lo ((lo + hi) / 2) := by
        simp only [bisectLeftAux]
        rw [if_pos hlt]
      rw [hunf]
      by_cases hx : a.getD ((lo + hi) / 2) 0 < x
      · rw [if_pos hx]
        exact ih ((lo + hi) / 2 + 1) hi (by omega) (by omega) hhl
          (fun i h1 =>
            lt_of_le_of_lt (sorted_getD_mono hs (by omega) hmidlen) hx)
          hhigh
      · rw [if_neg hx]
        exact ih lo ((lo + hi) / 2) (by omega) (by omega) (by omega) hlow
          (fun i h1 h2 =>
            le_trans (not_lt.mp hx) (sorted_getD_mono hs h1 h2))
    · have hunf : bisectLeftAux a x (fuel + 1) lo hi = lo := by
        simp only [bisectLeftAux]
        rw [if_neg hlt]
      rw [hunf]
      exact ⟨hlow, fun i h1 h2 => hhigh i (by omega) h2⟩

/-- On a sorted list, `bisect.bisect_left` returns the index of the first
entry `≥ x` (or the length when there is none). -/
theorem bisectL_spec {a : List Nat} (hs : a.Sorted (· ≤ ·)) (x : Nat) :
    (∀ i, i < bisectL a x → a.getD i 0 < x) ∧
    (∀ i, bisectL a x ≤ i → i < a.length → x ≤ a.getD i 0) :=
  bisectLeftAux_spec hs x a.length 0 a.length (by omega) (Nat.zero_le _)
    (Nat.le_refl _) (fun i h1 => absurd h1 (Nat.not_lt_zero i))
    (fun i h1 h2 => absurd h2 (not_lt.mpr h1))

/-! ## Ring lookup lemmas -/

theorem dget_mem {α β : Type} [DecidableEq α] {d : List (α × β)} {k : α}
    {v : β} (h : dget d k = some v) : (k, v) ∈ d := by
  unfold dget at h
  cases hf : d.find? (fun p => decide (p.1 = k)) with
  | none => rw [hf] at h; simp at h
  | some p =>
    rw [hf] at h
    have hp1 : p.1 = k := by simpa using List.find?_some hf
    have hp2 : p.2 = v := by simpa using h
    have := List.mem_of_find?_eq_some hf
    rwa [show (k, v) = p from Prod.ext hp1.symm hp2.symm]

theorem dget_eq_of_mem {α β : Type} [DecidableEq α] {d : List (α × β)}
    (hnd : (d.map Prod.fst).Nodup) {k : α} {v : β} (hmem : (k, v) ∈ d) :
    dget d k = some v := by
  induction d with
  | nil => simp at hmem
  | cons p tl ih =>
    obtain ⟨a, b⟩ := p
    simp only [List.map_cons, List.nodup_cons] at hnd
    rw [dget_cons]
    rcases List.mem_cons.mp hmem with hh | ht
    · injection hh with h1 h2
      rw [if_pos h1.symm, h2]
    · have hak : a ≠ k := by
        intro he
        subst he
        exact hnd.1 (List.mem_map_of_mem Prod.fst ht)
      rw [if_neg hak]
      exact ih hnd.2 ht

theorem find?_first_index {l : List Nat} {p : Nat → Bool} :
    ∀ {idx : Nat}, idx < l.length →
    (∀ i, i < idx → p (l.getD i 0) = false) → p (l.getD idx 0) = true →
    l.find? p = some (l.getD idx 0) := by
  induction l with
  | nil => intro idx hidx; simp at hidx
  | cons a tl ih =>
    intro idx hidx hbefore hat
    cases idx with
    | zero =>
      rw [List.getD_cons_zero] at hat ⊢
      simp only [List.find?_cons, hat]
    | succ n =>
      have h0 : p a = false := by
        simpa using hbefore 0 (Nat.succ_pos n)
      simp only [List.find?_cons, h0]
      rw [List.getD_cons_succ]
      exact ih (by simpa using hidx)
        (fun i hi => by simpa using hbefore (i + 1) (Nat.succ_lt_succ hi))
        (by simpa using hat)

theorem find?_none_of_all {l : List Nat} {p : Nat → Bool}
    (h : ∀ i, i < l.length → p (l.getD i 0) = false) : l.find? p = none := by
  rw [List.find?_eq_none]
  intro x hx
  obtain ⟨i, hi, rfl⟩ := List.mem_iff_getElem.mp hx
  have hfalse := h i hi
  rw [getD_eq_getElem_of_lt l hi] at hfalse
  simp [hfalse]

namespace ConsistentHashRing

/-- In a well-formed state every ring point resolves to a registered owner
and its client. -/
theorem WF.lookup_at {st : ConsistentHashRing κ} (hwf : st.WF) {j : Nat}
    (hj : j < st.ring.length) :
    ∃ name c, dget st.hash2node (st.ring.getD j 0) = some name ∧
      dget st.nodes name = some c := by
  obtain ⟨-, hr2m, -, -, -, hvals, -⟩ := hwf
  have hmem : st.ring.getD j 0 ∈ st.ring := by
    rw [getD_eq_getElem_of_lt st.ring hj]
    exact List.getElem_mem hj
  have hsome : (dget st.hash2node (st.ring.getD j 0)).isSome = true :=
    (dget_isSome_iff_mem _ _).mpr (hr2m _ hmem)
  obtain ⟨name, hname⟩ := Option.isSome_iff_exists.mp hsome
  have hval := hvals _ (dget_mem hname)
  obtain ⟨c, hc⟩ := Option.isSome_iff_exists.mp hval
  exact ⟨name, c, hname, hc⟩

end ConsistentHashRing

/-! ## Replica-set walk lemmas -/

namespace ConsistentHashRing

theorem gnfkStep_cases (st : ConsistentHashRing κ)
    (found : List (String × κ)) (used : List String) (h : Nat) :
    gnfkStep st found used h = (found, used) ∨
    ∃ name c, dget st.hash2node h = some name ∧ dget st.nodes name = some c ∧
      name ∉ used ∧
      gnfkStep st found used h = (found ++ [(name, c)], used ++ [name]) := by
  cases h1 : dget st.hash2node h with
  | none => exact Or.inl (by simp [gnfkStep, h1])
  | some name =>
    cases h2 : dget st.nodes name with
    | none => exact Or.inl (by simp [gnfkStep, h1, h2])
    | some c =>
      by_cases hu : name ∈ used
      · exact Or.inl (by simp [gnfkStep, h1, h2, hu])
      · exact Or.inr ⟨name, c, rfl, h2, hu, by simp [gnfkStep, h1, h2, hu]⟩

theorem gnfkLoop_names_nodup (st : ConsistentHashRing κ) (count : Nat) :
    ∀ (fuel i : Nat) (found : List (String × κ)) (used : List String),
    (found.map Prod.fst).Nodup →
    (∀ n ∈ found.map Prod.fst, n ∈ used) →
    ((gnfkLoop st count fuel i found used).map Prod.fst).Nodup := by
  intro fuel
  induction fuel with
  | zero => intro i found used h1 _; exact h1
  | succ fuel ih =>
    intro i found used h1 h2
    rw [gnfkLoop]
    by_cases hc : found.length < count ∧ 0 < st.ring.length
    · rw [if_pos hc]
      dsimp only
      rcases gnfkStep_cases st found used
          (st.ring.getD (if i = st.ring.length then 0 else i) 0) with
        hs | ⟨name, c, _, _, hnu, hs⟩
      · rw [hs]
        by_cases hb : used.length = st.nodes.length
        · rw [if_pos hb]; exact h1
        · rw [if_neg hb]; exact ih _ found used h1 h2
      · rw [hs]
        have hdisj : (found.map Prod.fst).Disjoint [name] := by
          intro n hn hn2
          rw [List.mem_singleton] at hn2
          exact hnu (hn2 ▸ h2 n hn)
        have h1' : ((found ++ [(name, c)]).map Prod.fst).Nodup := by
          rw [List.map_append]
          simp only [List.map_cons, List.map_nil]
          exact List.Nodup.append h1 (List.nodup_singleton _) hdisj
        have h2' : ∀ n ∈ (found ++ [(name, c)]).map Prod.fst,
            n ∈ used ++ [name] := by
          intro n hn
          rw [List.map_append, List.mem_append] at hn
          rcases hn with hn | hn
          · exact List.mem_append_left _ (h2 n hn)
          · simp only [List.map_cons, List.map_nil, List.mem_singleton] at hn
            exact hn ▸ List.mem_append_right _ (List.mem_singleton_self _)
        by_cases hb : (used ++ [name]).length = st.nodes.length
        · rw [if_pos hb]; exact h1'
        · rw [if_neg hb]; exact ih _ _ _ h1' h2'
    · rw [if_neg hc]; exact h1

/-- The central invariant argument for the replica-set walk: starting the
loop with consistent accumulators and with every still-missing registered
node reachable within `fuel` steps of the (wrapped) walk, the walk returns
exactly `min count (number of registered nodes)` entries. -/
theorem gnfkLoop_length {st : ConsistentHashRing κ} (hwf : st.WF)
    (count : Nat) :
    ∀ (fuel i : Nat) (found : List (String × κ)) (used : List String),
    used = found.map Prod.fst →
    (found.map Prod.fst).Nodup →
    (∀ n ∈ used, n ∈ st.nodes.map Prod.fst) →
    i ≤ st.ring.length → 0 < st.ring.length →
    found.length ≤ count →
    (∀ q ∈ st.nodes, q.1 ∉ used → ∃ t < fuel,
      dget st.hash2node (st.ring.getD ((i + t) % st.ring.length) 0) =
        some q.1) →
    (gnfkLoop st count fuel i found used).length =
      min count st.nodes.length := by
  intro fuel
  induction fuel with
  | zero =>
    intro i found used hused hnd hreg hile hlen hcnt hcov
    have hall : ∀ n ∈ st.nodes.map Prod.fst, n ∈ used := by
      intro n hn
      obtain ⟨q, hq, rfl⟩ := List.mem_map.mp hn
      by_contra hnq
      obtain ⟨t, ht, -⟩ := hcov q hq hnq
      omega
    have hle1 : used.length ≤ (st.nodes.map Prod.fst).length :=
      (List.subperm_of_subset (hused ▸ hnd) hreg).length_le
    have hle2 : (st.nodes.map Prod.fst).length ≤ used.length :=
      (List.subperm_of_subset hwf.2.2.2.2.1 hall).length_le
    have e1 : used.length = found.length := by rw [hused]; simp
    have e2 : (st.nodes.map Prod.fst).length = st.nodes.length := by simp
    show found.length = min count st.nodes.length
    rw [Nat.min_def]
    split <;> omega
  | succ fuel ih =>
    intro i found used hused hnd hreg hile hlen hcnt hcov
    rw [gnfkLoop]
    by_cases hcond : found.length < count ∧ 0 < st.ring.length
    · rw [if_pos hcond]
      dsimp only
      have hflt : found.length < count := hcond.1
      have hjlt : (if i = st.ring.length then 0 else i) < st.ring.length := by
        split
        · exact hlen
        · omega
      have hjmod : (if i = st.ring.length then 0 else i) =
          i % st.ring.length := by
        split
        · rename_i h
          rw [h, Nat.mod_self]
        · rename_i h
          rw [Nat.mod_eq_of_lt (by omega)]
      obtain ⟨nm, c, hnm, hcnm⟩ := hwf.lookup_at hjlt
      have hnmreg : nm ∈ st.nodes.map Prod.fst :=
        (dget_isSome_iff_mem _ _).mp (by rw [hcnm]; rfl)
      have hpos0 : ∀ q : String × κ, dget st.hash2node
          (st.ring.getD ((i + 0) % st.ring.length) 0) = some q.1 →
          q.1 = nm := by
        intro q hdq
        rw [Nat.add_zero, ← hjmod] at hdq
        exact Option.some.inj (hdq.symm.trans hnm)
      have hpe : ∀ t : Nat, t ≠ 0 →
          ((if i = st.ring.length then 0 else i) + 1 + (t - 1)) %
            st.ring.length = (i + t) % st.ring.length := by
        intro t ht0
        rw [hjmod]
        have harith : i % st.ring.length + 1 + (t - 1) =
            i % st.ring.length + t := by omega
        rw [harith, Nat.mod_add_mod]
      by_cases hmem : nm ∈ used
      · have hstep : gnfkStep st found used
            (st.ring.getD (if i = st.ring.length then 0 else i) 0) =
            (found, used) := by
          unfold gnfkStep
          rw [hnm]
          dsimp only
          rw [hcnm]
          dsimp only
          rw [if_pos hmem]
        rw [hstep]
        by_cases hb : used.length = st.nodes.length
        · rw [if_pos hb]
          have e1 : used.length = found.length := by rw [hused]; simp
          show found.length = min count st.nodes.length
          rw [Nat.min_def]
          split <;> omega
        · rw [if_neg hb]
          refine ih _ found used hused hnd hreg (by omega) hlen
            (le_of_lt hflt) ?_
          intro q hq hnq
          obtain ⟨t, ht, hdq⟩ := hcov q hq hnq
          have ht0 : t ≠ 0 := by
            intro h0
            subst h0
            exact hnq ((hpos0 q hdq) ▸ hmem)
          refine ⟨t - 1, by omega, ?_⟩
          rw [hpe t ht0]
          exact hdq
      · have hstep : gnfkStep st found used
            (st.ring.getD (if i = st.ring.length then 0 else i) 0) =
            (found ++ [(nm, c)], used ++ [nm]) := by
          unfold gnfkStep
          rw [hnm]
          dsimp only
          rw [hcnm]
          dsimp only
          rw [if_neg hmem]
        rw [hstep]
        by_cases hb : (used ++ [nm]).length = st.nodes.length
        · rw [if_pos hb]
          have e1 : used.length = found.length := by rw [hused]; simp
          have e2 : (used ++ [nm]).length = used.length + 1 := by simp
          have e3 : (found ++ [(nm, c)]).length = found.length + 1 := by simp
          show (found ++ [(nm, c)]).length = min count st.nodes.length
          rw [Nat.min_def]
          split <;> omega
        · rw [if_neg hb]
          refine ih _ (found ++ [(nm, c)]) (used ++ [nm]) ?_ ?_ ?_ (by omega)
            hlen ?_ ?_
          · rw [hused]
            simp
          · rw [List.map_append]
            simp only [List.map_cons, List.map_nil]
            refine List.Nodup.append hnd (List.nodup_singleton _) ?_
            intro n hn hn2
            rw [List.mem_singleton] at hn2
            subst hn2
            apply hmem
            rw [hused]
            exact hn
          · intro n hn
            rcases List.mem_append.mp hn with h | h
            · exact hreg n h
            · rw [List.mem_singleton] at h
              subst h
              exact hnmreg
          · simp only [List.length_append, List.length_cons,
              List.length_nil]
            omega
          · intro q hq hnq
            have hnq1 : q.1 ∉ used := fun h => hnq (List.mem_append_left _ h)
            have hnq2 : q.1 ≠ nm := by
              intro h
              exact hnq (List.mem_append_right _
                (by rw [h]; exact List.mem_singleton_self _))
            obtain ⟨t, ht, hdq⟩ := hcov q hq hnq1
            have ht0 : t ≠ 0 := by
              intro h0
              subst h0
              exact hnq2 (hpos0 q hdq)
            refine ⟨t - 1, by omega, ?_⟩
            rw [hpe t ht0]
            exact hdq
    · rw [if_neg hcond]
      have hor := not_and_or.mp hcond
      have hfeq : found.length = count := by
        rcases hor with h | h
        · omega
        · exact absurd hlen h
      have hcle : found.length ≤ st.nodes.length := by
        have hsub : found.map Prod.fst ⊆ st.nodes.map Prod.fst := by
          intro n hn
          apply hreg
          rw [hused]
          exact hn
        have := (List.subperm_of_subset hnd hsub).length_le
        simpa using this
      show found.length = min count st.nodes.length
      rw [Nat.min_def]
      split <;> omega

theorem get_nodes_for_key_names_nodup (hsh : String → Nat)
    (st : ConsistentHashRing κ) (key : String) (count : Nat) :
    ((st.get_nodes_for_key hsh key count).map Prod.fst).Nodup := by
  unfold get_nodes_for_key
  by_cases he : st.ring = []
  · rw [if_pos he]; exact List.nodup_nil
  · rw [if_neg he]
    exact gnfkLoop_names_nodup st count _ _ [] [] List.nodup_nil
      (by intro n hn; simp at hn)

/-- Top-level length characterisation of the replica-set lookup: on a
well-formed state it returns `min count (number of registered nodes)`
entries. -/
theorem get_nodes_for_key_length (hsh : String → Nat)
    (st : ConsistentHashRing κ) (key : String) (count : Nat)
    (hwf : st.WF) :
    (st.get_nodes_for_key hsh key count).length =
      min count st.nodes.length := by
  by_cases hne : st.ring = []
  · have hnil : st.nodes = [] := by
      cases hn : st.nodes with
      | nil => rfl
      | cons q tl =>
        exfalso
        obtain ⟨p, hp, -⟩ := hwf.2.2.2.2.2.2 q
          (by rw [hn]; exact List.mem_cons_self _ _)
        have hr := hwf.2.2.1 p hp
        rw [hne] at hr
        simp at hr
    unfold get_nodes_for_key
    rw [if_pos hne, hnil]
    simp
  · unfold get_nodes_for_key
    rw [if_neg hne]
    have hlen : 0 < st.ring.length := List.length_pos.mpr hne
    refine gnfkLoop_length hwf count st.ring.length
      (bisect st.ring (hsh key)) [] [] rfl List.nodup_nil (by simp)
      (bisect_le_length _ _) hlen (by simp) ?_
    intro q hq _
    obtain ⟨p, hp, hpv⟩ := hwf.2.2.2.2.2.2 q hq
    have hdg : dget st.hash2node p.1 = some q.1 := by
      apply dget_eq_of_mem hwf.2.2.2.1
      have hpe : (p.1, q.1) = p := by
        rw [← hpv]
      rw [hpe]
      exact hp
    have hring : p.1 ∈ st.ring := hwf.2.2.1 p hp
    obtain ⟨j0, hj0, hj0e⟩ := List.mem_iff_getElem.mp hring
    have hmlt : bisect st.ring (hsh key) % st.ring.length < st.ring.length :=
      Nat.mod_lt _ hlen
    by_cases hcase : bisect st.ring (hsh key) % st.ring.length ≤ j0
    · refine ⟨j0 - bisect st.ring (hsh key) % st.ring.length, by omega, ?_⟩
      have haux : (bisect st.ring (hsh key) +
          (j0 - bisect st.ring (hsh key) % st.ring.length)) %
          st.ring.length = j0 := by
        rw [← Nat.mod_add_mod,
          show bisect st.ring (hsh key) % st.ring.length +
            (j0 - bisect st.ring (hsh key) % st.ring.length) = j0 from by
              omega,
          Nat.mod_eq_of_lt hj0]
      rw [haux, getD_eq_getElem_of_lt _ hj0, hj0e]
      exact hdg
    · refine ⟨j0 + st.ring.length -
        bisect st.ring (hsh key) % st.ring.length, by omega, ?_⟩
      have haux : (bisect st.ring (hsh key) +
          (j0 + st.ring.length -
            bisect st.ring (hsh key) % st.ring.length)) %
          st.ring.length = j0 := by
        rw [← Nat.mod_add_mod,
          show bisect st.ring (hsh key) % st.ring.length +
            (j0 + st.ring.length -
              bisect st.ring (hsh key) % st.ring.length) =
            j0 + st.ring.length from by omega,
          Nat.add_mod_right, Nat.mod_eq_of_lt hj0]
      rw [haux, getD_eq_getElem_of_lt _ hj0, hj0e]
      exact hdg

end ConsistentHashRing

/-! ## Client fan-out loop lemmas -/

namespace DistributedMemcachedClient

theorem setLoop_spec (setOk : κ → Bool) :
    ∀ (ns : List (String × κ)) (results : List (String × Bool))
      (success : Bool) (stored : List String),
    (∀ p ∈ ns, dget results p.1 = none) → (ns.map Prod.fst).Nodup →
    setLoop setOk ns results success stored =
      (results ++ ns.map (fun p => (p.1, setOk p.2)),
       success || ns.any (fun p => setOk p.2),
       stored ++ (ns.filter (fun p => setOk p.2)).map Prod.fst) := by
  intro ns
  induction ns with
  | nil => intro results success stored _ _; simp [setLoop]
  | cons p rest ih =>
    intro results success stored hfresh hnd
    obtain ⟨name, cl⟩ := p
    simp only [List.map_cons, List.nodup_cons] at hnd
    have hfr : dget results name = none :=
      hfresh (name, cl) (List.mem_cons_self _ _)
    have hfresh' : ∀ q ∈ rest, dget (results ++ [(name, setOk cl)]) q.1 =
        none := by
      intro q hq
      rw [dget_append_right _ (hfresh q (List.mem_cons_of_mem _ hq)),
        dget_cons, if_neg, dget_nil]
      intro hqe
      exact hnd.1 (hqe ▸ (List.mem_map_of_mem Prod.fst hq))
    cases hso : setOk cl with
    | true =>
      rw [setLoop, if_pos hso, dset_of_none _ hfr,
        ih (results ++ [(name, true)]) true (stored ++ [name])
          (by simpa [hso] using hfresh') hnd.2]
      simp [hso, List.append_assoc]
    | false =>
      rw [setLoop, if_neg (by simp [hso]), dset_of_none _ hfr,
        ih (results ++ [(name, false)]) success stored
          (by simpa [hso] using hfresh') hnd.2]
      simp [hso, List.append_assoc]

theorem deleteLoop_spec (delOk : κ → Bool) :
    ∀ (ns : List (String × κ)) (results : List (String × Bool)),
    (∀ p ∈ ns, dget results p.1 = none) → (ns.map Prod.fst).Nodup →
    deleteLoop delOk ns results =
      results ++ ns.map (fun p => (p.1, delOk p.2)) := by
  intro ns
  induction ns with
  | nil => intro results _ _; simp [deleteLoop]
  | cons p rest ih =>
    intro results hfresh hnd
    obtain ⟨name, cl⟩ := p
    simp only [List.map_cons, List.nodup_cons] at hnd
    have hfr : dget results name = none :=
      hfresh (name, cl) (List.mem_cons_self _ _)
    have hfresh' : ∀ q ∈ rest, dget (results ++ [(name, delOk cl)]) q.1 =
        none := by
      intro q hq
      rw [dget_append_right _ (hfresh q (List.mem_cons_of_mem _ hq)),
        dget_cons, if_neg, dget_nil]
      intro hqe
      exact hnd.1 (hqe ▸ (List.mem_map_of_mem Prod.fst hq))
    rw [deleteLoop, dset_of_none _ hfr, ih _ hfresh' hnd.2]
    simp [List.append_assoc]

theorem getLoop_eq_none (getResp : κ → GetResp)
    (dec : List Nat → Option String) :
    ∀ ns : List (String × κ), (∀ p ∈ ns, (getResp p.2).isHit = false) →
    getLoop getResp dec ns = none := by
  intro ns
  induction ns with
  | nil => intro _; rfl
  | cons p rest ih =>
    intro hmiss
    obtain ⟨name, cl⟩ := p
    have h1 := hmiss (name, cl) (List.mem_cons_self _ _)
    rw [getLoop]
    cases hr : getResp cl with
    | hit v => rw [hr] at h1; simp [GetResp.isHit] at h1
    | err => exact ih fun q hq => hmiss q (List.mem_cons_of_mem _ hq)
    | miss => exact ih fun q hq => hmiss q (List.mem_cons_of_mem _ hq)

theorem getLoop_first_hit (getResp : κ → GetResp)
    (dec : List Nat → Option String) (pre : List (String × κ))
    (p : String × κ) (post : List (String × κ)) (v : PyVal)
    (hpre : ∀ q ∈ pre, (getResp q.2).isHit = false)
    (hp : getResp p.2 = .hit v) :
    getLoop getResp dec (pre ++ p :: post) = some (decodeValue dec v) := by
  induction pre with
  | nil =>
    obtain ⟨name, cl⟩ := p
    rw [List.nil_append, getLoop, hp]
  | cons q pre ih =>
    obtain ⟨name, cl⟩ := q
    have h1 := hpre (name, cl) (List.mem_cons_self _ _)
    rw [List.cons_append, getLoop]
    cases hr : getResp cl with
    | hit w => rw [hr] at h1; simp [GetResp.isHit] at h1
    | err => exact ih fun q hq => hpre q (List.mem_cons_of_mem _ hq)
    | miss => exact ih fun q hq => hpre q (List.mem_cons_of_mem _ hq)

end DistributedMemcachedClient

/-! ## Ring mutation lemmas -/

theorem eraseIdx_first (a : Nat) :
    ∀ (l : List Nat) (i : Nat), i < l.length →
    (∀ k, k < i → l.getD k 0 ≠ a) → l.getD i 0 = a →
    l.eraseIdx i = l.erase a := by
  intro l
  induction l with
  | nil => intro i hi _ _; simp at hi
  | cons b tl ih =>
    intro i hi hk hat
    cases i with
    | zero =>
      rw [List.getD_cons_zero] at hat
      subst hat
      rw [List.eraseIdx_cons_zero, List.erase_cons_head]
    | succ n =>
      have hb : b ≠ a := by simpa using hk 0 (Nat.succ_pos n)
      rw [List.getD_cons_succ] at hat
      rw [List.eraseIdx_cons_succ, List.erase_cons_tail (by simpa using hb)]
      exact congrArg (b :: ·) (ih n (by simpa using hi)
        (fun k hk' => by simpa using hk (k + 1) (Nat.succ_lt_succ hk')) hat)

namespace ConsistentHashRing

/-- On a sorted ring the per-hash removal step of `remove_node` is exactly
`List.erase`: `bisect_left` finds the first occurrence of `h` and the guard
pops it only when present. -/
theorem popBisect_eq_erase {r : List Nat} (hs : r.Sorted (· ≤ ·)) (h : Nat) :
    popBisect r h = r.erase h := by
  unfold popBisect
  dsimp only
  have hspec := bisectL_spec hs h
  have hble := bisectL_le_length r h
  by_cases hmem : h ∈ r
  · obtain ⟨j, hj, hje⟩ := List.mem_iff_getElem.mp hmem
    have hjge : bisectL r h ≤ j := by
      by_contra hlt
      have := hspec.1 j (by omega)
      rw [getD_eq_getElem_of_lt r hj, hje] at this
      omega
    have hblt : bisectL r h < r.length := by omega
    have hat : r.getD (bisectL r h) 0 = h := by
      have h1 : h ≤ r.getD (bisectL r h) 0 :=
        hspec.2 _ (le_refl _) hblt
      have h2 : r.getD (bisectL r h) 0 ≤ r.getD j 0 :=
        sorted_getD_mono hs hjge hj
      rw [getD_eq_getElem_of_lt r hj, hje] at h2
      omega
    rw [if_pos ⟨hblt, hat⟩]
    exact eraseIdx_first h r _ hblt
      (fun k hk => by
        have := hspec.1 k hk
        omega)
      hat
  · have hcond : ¬ (bisectL r h < r.length ∧ r.getD (bisectL r h) 0 = h) := by
      rintro ⟨h1, h2⟩
      apply hmem
      rw [← h2, getD_eq_getElem_of_lt r h1]
      exact List.getElem_mem h1
    rw [if_neg hcond]
    exact (List.erase_of_not_mem hmem).symm

/-- Fresh keys assigned in a loop append in order (add_node on hash2node). -/
theorem foldl_dset_append {β : Type} (name : β) :
    ∀ (hs : List Nat) (d : List (Nat × β)),
    (∀ h ∈ hs, dget d h = none) → hs.Nodup →
    hs.foldl (fun d h => dset d h name) d =
      d ++ hs.map (fun h => (h, name)) := by
  intro hs
  induction hs with
  | nil => intro d _ _; simp
  | cons h tl ih =>
    intro d hfresh hnd
    simp only [List.nodup_cons] at hnd
    rw [List.foldl_cons,
      dset_of_none name (hfresh h (List.mem_cons_self _ _))]
    rw [ih (d ++ [(h, name)]) ?_ hnd.2]
    · simp
    · intro h2 h2m
      rw [dget_append_right _ (hfresh h2 (List.mem_cons_of_mem _ h2m)),
        dget_cons, if_neg, dget_nil]
      intro he
      exact hnd.1 (he ▸ h2m)

theorem ddel_append_of_none {α β : Type} [DecidableEq α]
    {d : List (α × β)} {k : α} (l : List (α × β))
    (hnone : dget d k = none) :
    ddel (d ++ l) k = d ++ ddel l k := by
  induction d with
  | nil => simp
  | cons p tl ih =>
    obtain ⟨a, b⟩ := p
    rw [dget_cons] at hnone
    have hak : a ≠ k := by
      intro he
      rw [if_pos he] at hnone
      exact Option.noConfusion hnone
    rw [if_neg hak] at hnone
    rw [List.cons_append, ddel_cons, if_neg hak, ih hnone]
    simp

/-- Deleting the freshly appended entries in order restores the dict
(remove_node on hash2node after add_node). -/
theorem foldl_ddel_cancel {β : Type} (name : β) :
    ∀ (hs : List Nat) (d : List (Nat × β)),
    (∀ h ∈ hs, dget d h = none) →
    hs.foldl (fun d h => ddel d h) (d ++ hs.map (fun h => (h, name))) =
      d := by
  intro hs
  induction hs with
  | nil => intro d _; simp [ddel]
  | cons h tl ih =>
    intro d hfresh
    rw [List.map_cons, List.foldl_cons,
      ddel_append_of_none _ (hfresh h (List.mem_cons_self _ _)),
      ddel_cons, if_pos rfl]
    exact ih d (fun h2 h2m => hfresh h2 (List.mem_cons_of_mem _ h2m))

theorem foldl_erase_append :
    ∀ (hs ring : List Nat), (∀ h ∈ hs, h ∉ ring) →
    hs.foldl (fun r h => r.erase h) (ring ++ hs) = ring := by
  intro hs
  induction hs with
  | nil => intro ring _; simp
  | cons h tl ih =>
    intro ring hfresh
    rw [List.foldl_cons,
      List.erase_append_right _ (hfresh h (List.mem_cons_self _ _)),
      List.erase_cons_head]
    exact ih ring (fun h2 h2m => hfresh h2 (List.mem_cons_of_mem _ h2m))

theorem foldl_erase_perm :
    ∀ (hs r r' : List Nat), List.Perm r r' →
    List.Perm (hs.foldl (fun l h => l.erase h) r)
      (hs.foldl (fun l h => l.erase h) r') := by
  intro hs
  induction hs with
  | nil => intro r r' hp; exact hp
  | cons h tl ih =>
    intro r r' hp
    rw [List.foldl_cons, List.foldl_cons]
    exact ih _ _ (hp.erase h)

theorem foldl_popBisect_eq_foldl_erase :
    ∀ (hs r : List Nat), r.Sorted (· ≤ ·) →
    hs.foldl (fun l h => popBisect l h) r =
      hs.foldl (fun l h => l.erase h) r := by
  intro hs
  induction hs with
  | nil => intro r _; rfl
  | cons h tl ih =>
    intro r hsrt
    rw [List.foldl_cons, List.foldl_cons, popBisect_eq_erase hsrt]
    exact ih _ (hsrt.sublist (List.erase_sublist h r))

theorem foldl_erase_sorted :
    ∀ (hs r : List Nat), r.Sorted (· ≤ ·) →
    (hs.foldl (fun l h => l.erase h) r).Sorted (· ≤ ·) := by
  intro hs
  induction hs with
  | nil => intro r hsrt; exact hsrt
  | cons h tl ih =>
    intro r hsrt
    rw [List.foldl_cons]
    exact ih _ (hsrt.sublist (List.erase_sublist h r))

end ConsistentHashRing

/-! ## Collision-free run lemmas -/

theorem map_fst_map_pair {β : Type} (name : β) (l : List Nat) :
    ((l.map (fun h => (h, name))).map Prod.fst) = l := by
  induction l with
  | nil => rfl
  | cons a tl ih => simp only [List.map_cons, ih]

theorem map_fst_ddel {α β : Type} [DecidableEq α] (d : List (α × β))
    (k : α) : (ddel d k).map Prod.fst = (d.map Prod.fst).erase k := by
  induction d with
  | nil => rfl
  | cons p tl ih =>
    obtain ⟨a, b⟩ := p
    rw [ddel_cons]
    by_cases hak : a = k
    · subst hak
      rw [if_pos rfl, List.map_cons, List.erase_cons_head]
    · rw [if_neg hak, List.map_cons, List.map_cons,
        List.erase_cons_tail (by simpa using hak), ih]

theorem sorted_lt_of_le_nodup {l : List Nat} (h1 : l.Sorted (· ≤ ·))
    (h2 : l.Nodup) : l.Sorted (· < ·) :=
  (h1.and h2).imp (fun hab => lt_of_le_of_ne hab.1 hab.2)

theorem foldl_erase_sublist :
    ∀ (ks r : List Nat), List.Sublist (ks.foldl (fun l h => l.erase h) r) r
  | [], r => List.Sublist.refl r
  | k :: ks, r => by
    rw [List.foldl_cons]
    exact (foldl_erase_sublist ks (r.erase k)).trans (List.erase_sublist k r)

theorem mem_foldl_erase (x : Nat) :
    ∀ (ks r : List Nat), r.Nodup →
    (x ∈ ks.foldl (fun l h => l.erase h) r ↔ x ∈ r ∧ x ∉ ks) := by
  intro ks
  induction ks with
  | nil => intro r _; simp
  | cons k ks ih =>
    intro r hnd
    rw [List.foldl_cons, ih _ (hnd.erase k), hnd.mem_erase_iff]
    constructor
    · rintro ⟨⟨hxk, hxr⟩, hxks⟩
      refine ⟨hxr, ?_⟩
      rw [List.mem_cons]
      push_neg
      exact ⟨hxk, hxks⟩
    · rintro ⟨hxr, hxkks⟩
      rw [List.mem_cons] at hxkks
      push_neg at hxkks
      exact ⟨⟨hxkks.1, hxr⟩, hxkks.2⟩

theorem eq_of_mem_nodup_keys {α β : Type} [DecidableEq α]
    {d : List (α × β)} (hnd : (d.map Prod.fst).Nodup) {p q : α × β}
    (hp : p ∈ d) (hq : q ∈ d) (he : p.1 = q.1) : p = q := by
  have h1 : dget d p.1 = some p.2 := dget_eq_of_mem hnd hp
  have h2 : dget d q.1 = some q.2 := dget_eq_of_mem hnd hq
  rw [he] at h1
  rw [h1] at h2
  exact Prod.ext he (Option.some.inj h2)

theorem foldl_ddel_cons_comm {α β : Type} [DecidableEq α] :
    ∀ (ks : List α) (a : α) (b : β) (tl : List (α × β)), a ∉ ks →
    ks.foldl (fun d h => ddel d h) ((a, b) :: tl) =
      (a, b) :: ks.foldl (fun d h => ddel d h) tl := by
  intro ks
  induction ks with
  | nil => intro a b tl _; rfl
  | cons k ks ih =>
    intro a b tl hmem
    rw [List.mem_cons] at hmem
    push_neg at hmem
    rw [List.foldl_cons, ddel_cons, if_neg hmem.1, List.foldl_cons]
    exact ih a b (ddel tl k) hmem.2

/-- Deleting, in order, all keys whose entry satisfies `pr` filters those
entries out (the `remove_node` loop over `hash2node`). -/
theorem foldl_ddel_by_filter {α β : Type} [DecidableEq α]
    (pr : α × β → Bool) :
    ∀ d : List (α × β), (d.map Prod.fst).Nodup →
    ((d.filter pr).map Prod.fst).foldl (fun d h => ddel d h) d =
      d.filter (fun p => ! pr p) := by
  intro d
  induction d with
  | nil => intro _; rfl
  | cons p tl ih =>
    intro hnd
    obtain ⟨a, b⟩ := p
    simp only [List.map_cons, List.nodup_cons] at hnd
    have hsub : ∀ x ∈ (tl.filter pr).map Prod.fst, x ∈ tl.map Prod.fst := by
      intro x hx
      obtain ⟨q, hq, rfl⟩ := List.mem_map.mp hx
      exact List.mem_map_of_mem Prod.fst (List.mem_of_mem_filter hq)
    cases hpr : pr (a, b) with
    | true =>
      rw [List.filter_cons_of_pos hpr, List.map_cons, List.foldl_cons,
        ddel_cons, if_pos rfl,
        List.filter_cons_of_neg (by simp [hpr]), ih hnd.2]
    | false =>
      rw [List.filter_cons_of_neg (by simp [hpr]),
        foldl_ddel_cons_comm _ a b tl (fun hm => hnd.1 (hsub a hm)),
        List.filter_cons_of_pos (by simp [hpr]), ih hnd.2]

theorem goodState_empty (hsh : String → Nat) (V : Nat) (NS : List String) :
    GoodState hsh V NS (⟨V, [], [], []⟩ : ConsistentHashRing κ) := by
  refine ⟨rfl, ?_, ?_, ?_, ?_, ?_⟩
  · intro q hq
    simp at hq
  · exact List.nodup_nil
  · intro p hp
    simp at hp
  · exact List.sorted_nil
  · intro h
    simp

theorem GoodState.add_node {hsh : String → Nat} {V : Nat} {NS : List String}
    {st : ConsistentHashRing κ} (hgs : GoodState hsh V NS st)
    (hnc : NoCollisions hsh V NS) {name : String} (hn : name ∈ NS)
    (client : κ) :
    GoodState hsh V NS (st.add_node hsh name client) := by
  obtain ⟨hV, hNS, hknd, hchar, hsort, hring⟩ := hgs
  by_cases hguard : (dget st.nodes name).isSome
  · unfold ConsistentHashRing.add_node
    rw [if_pos hguard]
    exact ⟨hV, hNS, hknd, hchar, hsort, hring⟩
  · have hnotmem : name ∉ st.nodes.map Prod.fst := by
      intro hm
      exact hguard ((dget_isSome_iff_mem _ _).mpr hm)
    have hnew : dget st.nodes name = none :=
      Option.not_isSome_iff_eq_none.mp hguard
    set hs := ConsistentHashRing.nodeHashes hsh st.replicas name with hhs
    have hsmem : ∀ h ∈ hs, ∃ i, i < V ∧
        h = hsh (ConsistentHashRing.vlabel name i) := by
      intro h hm
      rw [hhs] at hm
      unfold ConsistentHashRing.nodeHashes at hm
      obtain ⟨i, hi, rfl⟩ := List.mem_map.mp hm
      rw [List.mem_range, hV] at hi
      exact ⟨i, hi, rfl⟩
    have hsnd : hs.Nodup := by
      rw [hhs]
      unfold ConsistentHashRing.nodeHashes
      refine List.Nodup.map_on ?_ (List.nodup_range _)
      intro i1 h1 i2 h2 he
      rw [List.mem_range, hV] at h1 h2
      exact (hnc name hn name hn i1 (List.mem_range.mpr h1) i2
        (List.mem_range.mpr h2) he).2
    have hfreshk : ∀ h ∈ hs, h ∉ st.hash2node.map Prod.fst := by
      intro h hm hk
      obtain ⟨p, hp, hpe⟩ := List.mem_map.mp hk
      obtain ⟨hp2m, j, hj, hje⟩ := hchar p hp
      obtain ⟨i, hi, hie⟩ := hsmem h hm
      have hp2NS : p.2 ∈ NS := by
        obtain ⟨q, hq, hqe⟩ := List.mem_map.mp hp2m
        rw [← hqe]
        exact hNS q hq
      have hcol := hnc p.2 hp2NS name hn j (List.mem_range.mpr hj) i
        (List.mem_range.mpr hi) (hje.symm.trans (hpe.trans hie))
      rw [hcol.1] at hp2m
      exact hnotmem hp2m
    have hfresh2 : ∀ h ∈ hs, dget st.hash2node h = none := fun h hm =>
      dget_eq_none_of_not_mem (hfreshk h hm)
    have hfreshr : ∀ h ∈ hs, h ∉ st.ring := by
      intro h hm hr
      exact hfreshk h hm ((hring h).mp hr)
    unfold ConsistentHashRing.add_node
    rw [if_neg hguard]
    dsimp only
    rw [← hhs, dset_of_none client hnew,
      ConsistentHashRing.foldl_dset_append name hs st.hash2node hfresh2 hsnd]
    refine ⟨hV, ?_, ?_, ?_, ?_, ?_⟩
    · intro q hq
      rcases List.mem_append.mp hq with h | h
      · exact hNS q h
      · rw [List.mem_singleton] at h
        subst h
        exact hn
    · rw [List.map_append, map_fst_map_pair]
      refine List.Nodup.append hknd hsnd ?_
      intro x hx hx2
      exact hfreshk x hx2 hx
    · intro p hp
      rcases List.mem_append.mp hp with h | h
      · obtain ⟨hm, hi⟩ := hchar p h
        refine ⟨?_, hi⟩
        rw [List.map_append]
        exact List.mem_append_left _ hm
      · obtain ⟨x, hx, rfl⟩ := List.mem_map.mp h
        refine ⟨?_, hsmem x hx⟩
        rw [List.map_append]
        refine List.mem_append_right _ ?_
        simp
    · refine sorted_lt_of_le_nodup (List.sorted_insertionSort _ _) ?_
      rw [(List.perm_insertionSort _ _).nodup_iff]
      refine List.Nodup.append hsort.nodup hsnd ?_
      intro x hx hx2
      exact hfreshr x hx2 hx
    · intro h
      rw [(List.perm_insertionSort _ _).mem_iff, List.mem_append,
        List.map_append, map_fst_map_pair, List.mem_append, hring h]

theorem GoodState.remove_node {hsh : String → Nat} {V : Nat}
    {NS : List String} {st : ConsistentHashRing κ}
    (hgs : GoodState hsh V NS st) (name : String) :
    GoodState hsh V NS (st.remove_node name) := by
  obtain ⟨hV, hNS, hknd, hchar, hsort, hring⟩ := hgs
  by_cases hguard : (dget st.nodes name).isNone
  · unfold ConsistentHashRing.remove_node
    rw [if_pos hguard]
    exact ⟨hV, hNS, hknd, hchar, hsort, hring⟩
  · unfold ConsistentHashRing.remove_node
    rw [if_neg hguard]
    dsimp only
    set toR := (st.hash2node.filter (fun p => decide (p.2 = name))).map
      Prod.fst with htoR
    have hh2n : toR.foldl (fun d h => ddel d h) st.hash2node =
        st.hash2node.filter (fun p => !(decide (p.2 = name))) := by
      rw [htoR]
      exact foldl_ddel_by_filter _ st.hash2node hknd
    have hringres : toR.foldl
        (fun r h => ConsistentHashRing.popBisect r h) st.ring =
        toR.foldl (fun l h => l.erase h) st.ring :=
      ConsistentHashRing.foldl_popBisect_eq_foldl_erase toR st.ring
        hsort.le_of_lt
    refine ⟨hV, ?_, ?_, ?_, ?_, ?_⟩
    · intro q hq
      exact hNS q ((List.eraseP_sublist _).subset hq)
    · rw [hh2n]
      exact hknd.sublist ((List.filter_sublist _).map Prod.fst)
    · rw [hh2n]
      intro p hp
      have hpmem := List.mem_of_mem_filter hp
      have hpne : p.2 ≠ name := by simpa using List.of_mem_filter hp
      obtain ⟨hm, hi⟩ := hchar p hpmem
      refine ⟨?_, hi⟩
      rw [map_fst_ddel, List.mem_erase_of_ne hpne]
      exact hm
    · rw [hringres]
      exact hsort.sublist (foldl_erase_sublist toR st.ring)
    · rw [hringres, hh2n]
      intro h
      rw [mem_foldl_erase h toR st.ring hsort.nodup, hring h]
      constructor
      · rintro ⟨hk, hnR⟩
        obtain ⟨p, hp, rfl⟩ := List.mem_map.mp hk
        refine List.mem_map_of_mem Prod.fst (List.mem_filter.mpr ⟨hp, ?_⟩)
        by_contra hc
        apply hnR
        rw [htoR]
        refine List.mem_map_of_mem Prod.fst (List.mem_filter.mpr ⟨hp, ?_⟩)
        simpa using hc
      · intro hk
        obtain ⟨p, hp, rfl⟩ := List.mem_map.mp hk
        have hpmem := List.mem_of_mem_filter hp
        have hpne : p.2 ≠ name := by simpa using List.of_mem_filter hp
        refine ⟨List.mem_map_of_mem Prod.fst hpmem, ?_⟩
        intro hR
        rw [htoR] at hR
        obtain ⟨q, hq, hqe⟩ := List.mem_map.mp hR
        have hqmem := List.mem_of_mem_filter hq
        have hqeq : q.2 = name := by simpa using List.of_mem_filter hq
        have hqp : q = p := eq_of_mem_nodup_keys hknd hqmem hpmem hqe
        rw [hqp] at hqeq
        exact hpne hqeq

theorem goodState_applyOps {hsh : String → Nat} {V : Nat}
    {NS : List String} :
    ∀ (ops : List (RingOp κ)) (st : ConsistentHashRing κ),
    GoodState hsh V NS st → NoCollisions hsh V NS →
    (∀ n ∈ addNames ops, n ∈ NS) →
    GoodState hsh V NS (applyOps hsh st ops) := by
  intro ops
  induction ops with
  | nil => intro st hgs _ _; exact hgs
  | cons op tl ih =>
    intro st hgs hnc hns
    cases op with
    | add name client =>
      have hname : name ∈ NS := hns name (List.mem_cons_self _ _)
      exact ih _ (hgs.add_node hnc hname client) hnc
        (fun n hnm => hns n (List.mem_cons_of_mem _ hnm))
    | rem name =>
      exact ih _ (hgs.remove_node name) hnc hns

/-! ## Claim theorems -/

/-- C1: on a well-formed ring state the replica-set lookup returns a list
with no duplicate node identifiers whose length is exactly
`min count (number of registered nodes)`; in particular requesting more
replicas than there are nodes returns each registered node exactly once. -/
theorem replica_set_nodup_and_length (hsh : String → Nat)
    (st : ConsistentHashRing κ) (key : String) (count : Nat) (hwf : st.WF) :
    ((st.get_nodes_for_key hsh key count).map Prod.fst).Nodup ∧
    (st.get_nodes_for_key hsh key count).length =
      min count st.nodes.length :=
  ⟨ConsistentHashRing.get_nodes_for_key_names_nodup hsh st key count,
   ConsistentHashRing.get_nodes_for_key_length hsh st key count hwf⟩

/-- Witness for C1 at a concrete input: three registered nodes, five
replicas requested, so the replica set has `min 5 3 = 3` distinct entries. -/
theorem replica_set_nodup_and_length_witness :
    ((stABC.get_nodes_for_key hshW "k1" 5).map Prod.fst).Nodup ∧
    (stABC.get_nodes_for_key hshW "k1" 5).length =
      min 5 stABC.nodes.length :=
  replica_set_nodup_and_length hshW stABC "k1" 5 (by decide)

/-- C2: `get_node` returns `None` on an empty ring; on a well-formed
non-empty ring it returns the registered owner of the first ring point whose
hash value is strictly greater than `hash(key)`, wrapping to the first
(smallest) point when `hash(key)` exceeds every point (`specSuccessor` is
that successor, written from the words of the spec). Determinism across
repeated calls is definitional: the embedding is a pure function of the ring
state and the key. -/
theorem get_node_successor_spec (hsh : String → Nat)
    (st : ConsistentHashRing κ) (key : String) :
    (st.ring = [] → st.get_node hsh key = none) ∧
    (st.WF → st.ring ≠ [] → ∃ hstar name c,
      ConsistentHashRing.specSuccessor st.ring (hsh key) = some hstar ∧
      dget st.hash2node hstar = some name ∧ dget st.nodes name = some c ∧
      st.get_node hsh key = some (name, c)) := by
  constructor
  · intro he
    simp [ConsistentHashRing.get_node, he]
  · intro hwf hne
    have hlen : 0 < st.ring.length := List.length_pos.mpr hne
    have hsle : st.ring.Sorted (· ≤ ·) := hwf.1.le_of_lt
    have hspec := bisect_spec hsle (hsh key)
    have hble := bisect_le_length st.ring (hsh key)
    set j := if bisect st.ring (hsh key) = st.ring.length then 0
      else bisect st.ring (hsh key) with hj
    have hjlt : j < st.ring.length := by
      rw [hj]
      split
      · exact hlen
      · omega
    obtain ⟨name, c, hname, hc⟩ := hwf.lookup_at hjlt
    refine ⟨st.ring.getD j 0, name, c, ?_, hname, hc, ?_⟩
    · unfold ConsistentHashRing.specSuccessor
      by_cases hcase : bisect st.ring (hsh key) = st.ring.length
      · have hfind : st.ring.find? (fun p => decide (hsh key < p)) = none := by
          apply find?_none_of_all
          intro i hi
          simpa using not_lt.mpr (hspec.1 i (by omega))
        rw [hfind]
        have hj0 : j = 0 := by rw [hj, if_pos hcase]
        rw [hj0]
        cases hr : st.ring with
        | nil => exact absurd hr hne
        | cons a tl => simp
      · have hblt : bisect st.ring (hsh key) < st.ring.length := by omega
        have hjb : j = bisect st.ring (hsh key) := by rw [hj, if_neg hcase]
        have hfind : st.ring.find? (fun p => decide (hsh key < p)) =
            some (st.ring.getD (bisect st.ring (hsh key)) 0) := by
          apply find?_first_index hblt
          · intro i hi
            simpa using not_lt.mpr (hspec.1 i hi)
          · simpa using hspec.2 _ (le_refl _) hblt
        rw [hfind, hjb]
    · unfold ConsistentHashRing.get_node
      rw [if_neg hne]
      dsimp only
      rw [← hj, hname]
      dsimp only
      rw [hc]

/-- Witness for C2 at a concrete input: on the three-node ring, key `k1`
hashes to 25, its successor point is 30, owned by node `c`. -/
theorem get_node_successor_spec_witness :
    ConsistentHashRing.specSuccessor stABC.ring (hshW "k1") = some 30 ∧
    stABC.get_node hshW "k1" = some ("c", "c") := by
  obtain ⟨hstar, name, c, h1, h2, h3, h4⟩ :=
    (get_node_successor_spec hshW stABC "k1").2 (by decide) (by decide)
  have e1 : hstar = 30 := Option.some.inj (h1.symm.trans (by decide))
  subst e1
  have e2 : name = "c" := Option.some.inj (h2.symm.trans (by decide))
  subst e2
  have e3 : c = "c" := Option.some.inj (h3.symm.trans (by decide))
  subst e3
  exact ⟨h1, h4⟩

/-- The walk returns `found` unchanged once the requested count is reached. -/
theorem gnfkLoop_of_count_le {st : ConsistentHashRing κ}
    {count fuel i : Nat} {found : List (String × κ)} {used : List String}
    (h : ¬ found.length < count) :
    ConsistentHashRing.gnfkLoop st count fuel i found used = found := by
  cases fuel with
  | zero => rfl
  | succ f =>
    rw [ConsistentHashRing.gnfkLoop, if_neg (fun hc => h hc.1)]

/-- C8: on a well-formed ring state, the replica set computed with
`count = 1` is exactly the one-element list holding the primary returned by
`get_node` (both are empty on an empty ring). -/
theorem replica_set_one (hsh : String → Nat) (st : ConsistentHashRing κ)
    (key : String) (hwf : st.WF) :
    st.get_nodes_for_key hsh key 1 = (st.get_node hsh key).toList := by
  by_cases hne : st.ring = []
  · simp [ConsistentHashRing.get_nodes_for_key,
      ConsistentHashRing.get_node, hne]
  · have hlen : 0 < st.ring.length := List.length_pos.mpr hne
    have hble := bisect_le_length st.ring (hsh key)
    set j := if bisect st.ring (hsh key) = st.ring.length then 0
      else bisect st.ring (hsh key) with hj
    have hjlt : j < st.ring.length := by
      rw [hj]
      split
      · exact hlen
      · omega
    obtain ⟨name, c, hname, hc⟩ := hwf.lookup_at hjlt
    have hstep : ConsistentHashRing.gnfkStep st [] [] (st.ring.getD j 0) =
        ([(name, c)], [name]) := by
      unfold ConsistentHashRing.gnfkStep
      rw [hname]
      dsimp only
      rw [hc]
      dsimp only
      rw [if_neg (List.not_mem_nil name)]
      simp
    have hnode : st.get_node hsh key = some (name, c) := by
      unfold ConsistentHashRing.get_node
      rw [if_neg hne]
      dsimp only
      rw [← hj, hname]
      dsimp only
      rw [hc]
    rw [hnode]
    unfold ConsistentHashRing.get_nodes_for_key
    rw [if_neg hne]
    obtain ⟨f, hf⟩ : ∃ f, st.ring.length = f + 1 :=
      ⟨st.ring.length - 1, by omega⟩
    rw [hf, ConsistentHashRing.gnfkLoop,
      if_pos ⟨by norm_num, hlen⟩]
    dsimp only
    rw [← hj, hstep]
    dsimp only
    split
    · rfl
    · exact gnfkLoop_of_count_le (by norm_num)

/-- Witness for C8 at a concrete input. -/
theorem replica_set_one_witness :
    stABC.get_nodes_for_key hshW "k1" 1 =
      (stABC.get_node hshW "k1").toList :=
  replica_set_one hshW stABC "k1" (by decide)

/-- C6: adding an unregistered node and then immediately removing it
restores the ring state exactly (point sequence, hash-to-node mapping and
node table), and `add_node` inserts exactly `V = replicas` points; the
freshness hypotheses say the new virtual points collide neither with each
other nor with existing points (the spec acknowledges collisions as a
separate accepted imprecision). -/
theorem add_remove_roundtrip (hsh : String → Nat)
    (st : ConsistentHashRing κ) (name : String) (client : κ)
    (hwf : st.WF) (hnew : dget st.nodes name = none)
    (hfresh : ∀ h ∈ ConsistentHashRing.nodeHashes hsh st.replicas name,
      h ∉ st.ring)
    (hhnd : (ConsistentHashRing.nodeHashes hsh st.replicas name).Nodup) :
    (st.add_node hsh name client).remove_node name = st ∧
    (st.add_node hsh name client).ring.length =
      st.ring.length + st.replicas := by
  set hs := ConsistentHashRing.nodeHashes hsh st.replicas name with hhs
  have hguard : ¬ (dget st.nodes name).isSome = true := by
    rw [hnew]
    simp
  have hfresh2 : ∀ h ∈ hs, dget st.hash2node h = none := by
    intro h hm
    apply dget_eq_none_of_not_mem
    intro hk
    obtain ⟨p, hp, hpe⟩ := List.mem_map.mp hk
    exact hfresh h hm (hpe ▸ hwf.2.2.1 p hp)
  have hadd : st.add_node hsh name client =
      ⟨st.replicas, (st.ring ++ hs).insertionSort (· ≤ ·),
        st.hash2node ++ hs.map (fun h => (h, name)),
        st.nodes ++ [(name, client)]⟩ := by
    unfold ConsistentHashRing.add_node
    rw [if_neg hguard]
    dsimp only
    rw [← hhs, dset_of_none client hnew,
      ConsistentHashRing.foldl_dset_append name hs st.hash2node hfresh2 hhnd]
  rw [hadd]
  constructor
  · unfold ConsistentHashRing.remove_node
    dsimp only
    have hng : dget (st.nodes ++ [(name, client)]) name = some client := by
      rw [dget_append_right _ hnew, dget_cons, if_pos rfl]
    rw [hng, if_neg (by simp)]
    have hfilter : (st.hash2node ++ hs.map (fun h => (h, name))).filter
        (fun p => decide (p.2 = name)) = hs.map (fun h => (h, name)) := by
      rw [List.filter_append]
      have h1 : st.hash2node.filter (fun p => decide (p.2 = name)) = [] := by
        rw [List.filter_eq_nil_iff]
        intro p hp
        simp only [decide_eq_true_eq]
        intro hpe
        have hreg := hwf.2.2.2.2.2.1 p hp
        rw [hpe, hnew] at hreg
        simp at hreg
      have h2 : (hs.map (fun h => (h, name))).filter
          (fun p => decide (p.2 = name)) = hs.map (fun h => (h, name)) := by
        rw [List.filter_eq_self]
        intro p hp
        obtain ⟨h, hm, rfl⟩ := List.mem_map.mp hp
        simp
      rw [h1, h2, List.nil_append]
    rw [hfilter]
    have hmapmap : ∀ l : List Nat,
        ((l.map (fun h => (h, name))).map Prod.fst) = l := by
      intro l
      induction l with
      | nil => rfl
      | cons a tl ih => simp only [List.map_cons, ih]
    rw [hmapmap]
    have hnodesres : ddel (st.nodes ++ [(name, client)]) name = st.nodes := by
      rw [ConsistentHashRing.ddel_append_of_none _ hnew, ddel_cons,
        if_pos rfl]
      simp [ddel]
    have hh2nres : hs.foldl (fun d h => ddel d h)
        (st.hash2node ++ hs.map (fun h => (h, name))) = st.hash2node :=
      ConsistentHashRing.foldl_ddel_cancel name hs st.hash2node hfresh2
    have hringres : hs.foldl
        (fun r h => ConsistentHashRing.popBisect r h)
        ((st.ring ++ hs).insertionSort (· ≤ ·)) = st.ring := by
      have hsorted : ((st.ring ++ hs).insertionSort (· ≤ ·)).Sorted
          (· ≤ ·) := List.sorted_insertionSort _ _
      rw [ConsistentHashRing.foldl_popBisect_eq_foldl_erase hs _ hsorted]
      have hperm : List.Perm (hs.foldl (fun l h => l.erase h)
          ((st.ring ++ hs).insertionSort (· ≤ ·)))
          (hs.foldl (fun l h => l.erase h) (st.ring ++ hs)) :=
        ConsistentHashRing.foldl_erase_perm hs _ _
          (List.perm_insertionSort _ _)
      rw [ConsistentHashRing.foldl_erase_append hs st.ring hfresh] at hperm
      have hsorted2 := ConsistentHashRing.foldl_erase_sorted hs _ hsorted
      exact List.eq_of_perm_of_sorted hperm hsorted2 hwf.1.le_of_lt
    rw [hnodesres, hh2nres, hringres]
  · dsimp only
    rw [List.Perm.length_eq (List.perm_insertionSort _ (st.ring ++ hs)),
      List.length_append]
    congr 1
    rw [hhs]
    unfold ConsistentHashRing.nodeHashes
    simp

/-- C7 counterexample: with two density-1 nodes whose virtual points collide
on the hash value 7, `hash2node` is resolved last-write-wins as the claim
says, but the ring then holds the value 7 twice — the point sequence is not
strictly sorted and the colliding hash value does not appear only once. -/
theorem collision_duplicates_ring :
    stColl.ring = [7, 7] ∧
    dget stColl.hash2node 7 = some "b" ∧
    ¬ stColl.ring.Sorted (· < ·) := by
  decide

/-- C7 (amended): after every sequence of `add_node` / `remove_node`
operations from the empty ring in which the virtual points of the added
nodes do not collide (distinct labels hash to distinct values), the ring is
strictly sorted — ascending with no duplicate hash values — so binary
search is valid. (On a collision `hash2node` keeps only the last writer but
the ring keeps one copy of the hash per insertion, see the
counterexample.) -/
theorem ring_sorted_without_collisions (hsh : String → Nat) (V : Nat)
    (ops : List (RingOp κ))
    (hnc : NoCollisions hsh V (addNames ops)) :
    ((applyOps hsh (⟨V, [], [], []⟩ : ConsistentHashRing κ) ops).ring).Sorted
      (· < ·) :=
  (goodState_applyOps ops _ (goodState_empty hsh V (addNames ops)) hnc
    (fun _ hn => hn)).2.2.2.2.1

/-- Witness for C7 at a concrete input: adding `a` and `b` (distinct points
10, 40, 20, 50) and then removing `a` leaves a strictly sorted ring. -/
theorem ring_sorted_without_collisions_witness :
    ((applyOps hshW (⟨2, [], [], []⟩ : ConsistentHashRing String)
      [.add "a" "a", .add "b" "b", .rem "a"]).ring).Sorted (· < ·) :=
  ring_sorted_without_collisions hshW 2
    [.add "a" "a", .add "b" "b", .rem "a"] (by decide)

/-- Witness for C6 at a concrete input: adding node `c` (points 30 and 60)
to the two-node ring and removing it restores the state. -/
theorem add_remove_roundtrip_witness :
    (stAB.add_node hshW "c" "c").remove_node "c" = stAB ∧
    (stAB.add_node hshW "c" "c").ring.length =
      stAB.ring.length + stAB.replicas :=
  add_remove_roundtrip hshW stAB "c" "c" (by decide) (by decide)
    (by decide) (by decide)

/-- C4: `set` attempts the write on every node of the resolved replica set
even when some attempts fail (the outcome map has exactly one entry per
replica, holding that node's own outcome), and the overall success flag is
true if and only if at least one node accepted the write; in particular it
is false when the replica set is empty. -/
theorem set_fanout_success_iff (hsh : String → Nat) (setOk : κ → Bool)
    (c : DistributedMemcachedClient κ) (key : String) :
    (c.set hsh setOk key).1.2 =
      (c.ring.get_nodes_for_key hsh key c.replication_factor).map
        (fun p => (p.1, setOk p.2)) ∧
    ((c.set hsh setOk key).1.1 = true ↔
      ∃ p ∈ c.ring.get_nodes_for_key hsh key c.replication_factor,
        setOk p.2 = true) ∧
    (c.ring.get_nodes_for_key hsh key c.replication_factor = [] →
      (c.set hsh setOk key).1.1 = false) := by
  have hspec := DistributedMemcachedClient.setLoop_spec setOk
    (c.ring.get_nodes_for_key hsh key c.replication_factor) [] false []
    (fun p _ => rfl)
    (ConsistentHashRing.get_nodes_for_key_names_nodup hsh c.ring key
      c.replication_factor)
  refine ⟨?_, ?_, ?_⟩
  · show (DistributedMemcachedClient.setLoop setOk _ [] false []).1 = _
    rw [hspec]
    simp
  · show (DistributedMemcachedClient.setLoop setOk _ [] false []).2.1 =
      true ↔ _
    rw [hspec]
    simp [List.any_eq_true]
  · intro hne
    show (DistributedMemcachedClient.setLoop setOk _ [] false []).2.1 = false
    rw [hspec, hne]
    simp

/-- C9: `delete` attempts the delete on every node of the resolved replica
set independently and returns the per-node outcome map; the key is removed
from the local bookkeeping regardless of the outcomes, and every other
bookkeeping entry is unchanged. -/
theorem delete_fanout_frame (hsh : String → Nat) (delOk : κ → Bool)
    (c : DistributedMemcachedClient κ) (key : String)
    (hnd : (c.key_map.map Prod.fst).Nodup) :
    (c.delete hsh delOk key).1 =
      (c.ring.get_nodes_for_key hsh key c.replication_factor).map
        (fun p => (p.1, delOk p.2)) ∧
    dget (c.delete hsh delOk key).2.key_map key = none ∧
    (∀ k, k ≠ key →
      dget (c.delete hsh delOk key).2.key_map k = dget c.key_map k) := by
  have hspec := DistributedMemcachedClient.deleteLoop_spec delOk
    (c.ring.get_nodes_for_key hsh key c.replication_factor) []
    (fun p _ => rfl)
    (ConsistentHashRing.get_nodes_for_key_names_nodup hsh c.ring key
      c.replication_factor)
  refine ⟨by
    show DistributedMemcachedClient.deleteLoop delOk _ [] = _
    rw [hspec]
    simp, ?_, ?_⟩
  · show dget (if (dget c.key_map key).isSome then ddel c.key_map key
      else c.key_map) key = none
    by_cases hk : (dget c.key_map key).isSome
    · rw [if_pos hk]
      exact dget_ddel_self key hnd
    · rw [if_neg hk]
      exact Option.not_isSome_iff_eq_none.mp hk
  · intro k hkne
    show dget (if (dget c.key_map key).isSome then ddel c.key_map key
      else c.key_map) k = dget c.key_map k
    by_cases hk : (dget c.key_map key).isSome
    · rw [if_pos hk]
      exact dget_ddel_other c.key_map hkne
    · rw [if_neg hk]

/-- Witness for C9 at a concrete input: three nodes, delete of `k1` with
node `a` failing. -/
theorem delete_fanout_frame_witness :
    (cABC.delete hshW (fun cl => decide (cl ≠ "a")) "k1").1 =
      (cABC.ring.get_nodes_for_key hshW "k1"
        cABC.replication_factor).map
          (fun p => (p.1, decide (p.2 ≠ "a"))) ∧
    dget (cABC.delete hshW (fun cl => decide (cl ≠ "a")) "k1").2.key_map
      "k1" = none ∧
    (∀ k, k ≠ "k1" →
      dget (cABC.delete hshW (fun cl => decide (cl ≠ "a")) "k1").2.key_map
        k = dget cABC.key_map k) :=
  delete_fanout_frame hshW (fun cl => decide (cl ≠ "a")) cABC "k1"
    (by decide)

/-- C5: `get` walks the replica set strictly in priority order: when no
replica yields a value (errors behave exactly like misses) the result is
`None`, and the first replica with a present value determines the result
without the later replicas being queried (dropping them does not change the
result). -/
theorem get_priority_first_hit (hsh : String → Nat) (getResp : κ → GetResp)
    (dec : List Nat → Option String) (c : DistributedMemcachedClient κ)
    (key : String) :
    ((∀ p ∈ c.ring.get_nodes_for_key hsh key c.replication_factor,
        (getResp p.2).isHit = false) →
      c.get hsh getResp dec key = none) ∧
    (∀ pre p post v,
      c.ring.get_nodes_for_key hsh key c.replication_factor =
        pre ++ p :: post →
      (∀ q ∈ pre, (getResp q.2).isHit = false) → getResp p.2 = .hit v →
      c.get hsh getResp dec key = some
        (DistributedMemcachedClient.decodeValue dec v) ∧
      DistributedMemcachedClient.getLoop getResp dec (pre ++ [p]) = some
        (DistributedMemcachedClient.decodeValue dec v)) := by
  constructor
  · intro hmiss
    exact DistributedMemcachedClient.getLoop_eq_none getResp dec _ hmiss
  · intro pre p post v hns hpre hp
    constructor
    · show DistributedMemcachedClient.getLoop getResp dec _ = _
      rw [hns]
      exact DistributedMemcachedClient.getLoop_first_hit getResp dec pre p
        post v hpre hp
    · have := DistributedMemcachedClient.getLoop_first_hit getResp dec pre p
        ([] : List (String × κ)) v hpre hp
      simpa using this

/-- Witness for C5 at a concrete input: replica set `[c, a]`, node `c`
raises, node `a` holds the integer 7. -/
theorem get_priority_first_hit_witness :
    cABC.get hshW grW decW "k1" = some (.intVal 7) := by
  have h := (get_priority_first_hit hshW grW decW cABC "k1").2
    [("c", "c")] ("a", "a") [] (.intVal 7) (by decide) (by decide) (by decide)
  exact h.1

/-- C10: when the first responding replica holds a bytes value, `get`
returns the UTF-8 decode when decoding succeeds and the raw bytes when it
fails; non-bytes values are returned unchanged. -/
theorem get_decodes_bytes (hsh : String → Nat) (getResp : κ → GetResp)
    (dec : List Nat → Option String) (c : DistributedMemcachedClient κ)
    (key : String) (pre : List (String × κ)) (p : String × κ)
    (post : List (String × κ))
    (hns : c.ring.get_nodes_for_key hsh key c.replication_factor =
      pre ++ p :: post)
    (hpre : ∀ q ∈ pre, (getResp q.2).isHit = false) :
    (∀ b, getResp p.2 = .hit (.bytesVal b) →
      (∀ s, dec b = some s →
        c.get hsh getResp dec key = some (.strVal s)) ∧
      (dec b = none → c.get hsh getResp dec key = some (.bytesVal b))) ∧
    (∀ s, getResp p.2 = .hit (.strVal s) →
      c.get hsh getResp dec key = some (.strVal s)) ∧
    (∀ n, getResp p.2 = .hit (.intVal n) →
      c.get hsh getResp dec key = some (.intVal n)) := by
  have hmain : ∀ v, getResp p.2 = .hit v →
      c.get hsh getResp dec key = some
        (DistributedMemcachedClient.decodeValue dec v) := by
    intro v hv
    show DistributedMemcachedClient.getLoop getResp dec _ = _
    rw [hns]
    exact DistributedMemcachedClient.getLoop_first_hit getResp dec pre p
      post v hpre hv
  refine ⟨?_, ?_, ?_⟩
  · intro b hb
    constructor
    · intro s hs
      rw [hmain _ hb]
      simp [DistributedMemcachedClient.decodeValue, hs]
    · intro hs
      rw [hmain _ hb]
      simp [DistributedMemcachedClient.decodeValue, hs]
  · intro s hs
    rw [hmain _ hs]
    rfl
  · intro n hn
    rw [hmain _ hn]
    rfl

/-- Witness for C10 at a concrete input: the first responding replica holds
bytes `[104, 105]`, which decode to "hi". -/
theorem get_decodes_bytes_witness :
    cABC.get hshW grB decW "k1" = some (.strVal "hi") := by
  have h := (get_decodes_bytes hshW grB decW cABC "k1"
    [("c", "c")] ("a", "a") [] (by decide) (by decide)).1 [104, 105]
    (by decide)
  exact h.1 "hi" (by decide)

/-- C3 (evaluation at the failing input): with a single always-failing node
`a`, the resolved replica set for `k1` is `[a]`, the write is attempted on
`a` (the outcome map records the failed attempt), yet the bookkeeping entry
stored for `k1` is the empty list — the code records only the nodes on which
the write succeeded, not all attempted nodes. -/
theorem set_bookkeeping_records_successes :
    (cA.ring.get_nodes_for_key hshW "k1" cA.replication_factor).map
      Prod.fst = ["a"] ∧
    (cA.set hshW (fun _ => false) "k1").1.2 = [("a", false)] ∧
    (cA.set hshW (fun _ => false) "k1").2.key_map = [("k1", [])] := by
  decide

